import Mathlib

/-!
# Verification of the `vec-plus` sparse-vector container

A shallow embedding of the repository's two sparse-vector implementations
(`DefaultSparseVec` in `src/vec/default_sparse_vec.rs` and `ZeroSparseVec`
in `src/vec/sparse_vec.rs`) together with proofs and refutations of the
specification's claims about them.

Modelling conventions:
* `usize` lengths, indices and capacities are modelled as `Nat` (the
  allocator/overflow behaviour of the raw buffer layer is out of scope in
  the spec, which treats the growable-buffer primitive as an external
  collaborator).
* The two raw buffers are modelled by their live regions
  `indices[0 .. raw_len)` and `values[0 .. raw_len)` as Lean lists; the Rust
  code never reads a physical slot at or beyond `raw_len` without first
  writing it inside the same operation, so the live-region view is faithful.
  `raw_len` is the length of the live index list.
* Element types (`T : Default + PartialEq + Clone`) are modelled by a type
  with decidable equality plus an explicit default element (the Rust
  `Default::default()` value is passed explicitly where `new()` uses it).
* A Rust `panic!`/failed `assert!` is modelled by `Option`: `none` is a
  panic, `some` is normal completion.
* The `while` loops (binary search, dot-product merge) are translated to
  fuel-indexed structural recursion; the fuel supplied at each call site is
  an upper bound for the number of loop iterations, so the out-of-fuel
  branch is never taken.
-/

namespace VecPlus

/-- Model of `DefaultSparseVec<T>`: live prefixes of the two physical
buffers (`ind` = logical indices, `val` = stored values), the logical
length `len`, the elided `default` value and the buffer capacity `cap`.
The Rust field `raw_len` is the length of the live region `ind`. -/
structure DefaultSparseVec (α : Type) where
  ind : List Nat
  val : List α
  len : Nat
  default : α
  cap : Nat
deriving DecidableEq

variable {α : Type} [DecidableEq α]

namespace DefaultSparseVec

/-- `raw_len`: the physical (non-elided) entry count. -/
def rawLen (v : DefaultSparseVec α) : Nat := v.ind.length

/-- `DefaultSparseVec::new()`, with the `Default::default()` element passed
explicitly. Capacity starts at 0 (lazy allocation; the zero-sized-type
sentinel `usize::MAX` concerns only zero-sized `T` and is not modelled). -/
def new (d : α) : DefaultSparseVec α := ⟨[], [], 0, d, 0⟩

/-- `RawDefaultSparseVec::grow`: first growth allocates capacity 1,
afterwards capacity doubles. Only the capacity is observable in the model;
the live contents are preserved by the reallocation. -/
def grow (v : DefaultSparseVec α) : DefaultSparseVec α :=
  { v with cap := if v.cap = 0 then 1 else v.cap * 2 }

/-- The call pattern `if self.raw_len == self.cap() { self.buf.grow(); }`
shared by `push`, `insert`, `get_mut` and `n_push`. -/
def growIfFull (v : DefaultSparseVec α) : DefaultSparseVec α :=
  if v.rawLen = v.cap then v.grow else v

/-- Epilogue of `ind_binary_search` after the `while` loop has brought
`left` and `right` together (reads `indices[left]`). -/
def bsearchFin (l : List Nat) (index left : Nat) : Except Nat Nat :=
  let finalIndex := l.getD left 0
  if finalIndex = index then Except.ok left
  else if finalIndex < index then Except.error (left + 1)
  else Except.error left

/-- The `while left < right` loop of `ind_binary_search`, as fuel-indexed
recursion. Each iteration shrinks `right - left`, so any fuel
`≥ right - left` makes the fuel-exhaustion branch unreachable. -/
def bsearchGo (l : List Nat) (index : Nat) : Nat → Nat → Nat → Except Nat Nat
  | 0, left, _right => bsearchFin l index left
  | fuel + 1, left, right =>
    if left < right then
      let mid := left + (right - left) / 2
      let midIndex := l.getD mid 0
      if midIndex = index then Except.ok mid
      else if midIndex < index then bsearchGo l index fuel (mid + 1) right
      else bsearchGo l index fuel left mid
    else bsearchFin l index left

/-- `DefaultSparseVec::ind_binary_search`: `Except.ok p` models
`Ok(p)` (found at physical position `p`), `Except.error p` models
`Err(p)` (not found; `p` is the insertion position). -/
def ind_binary_search (v : DefaultSparseVec α) (index : Nat) : Except Nat Nat :=
  if v.rawLen = 0 then Except.error 0
  else bsearchGo v.ind index v.ind.length 0 (v.rawLen - 1)

/-- `DefaultSparseVec::push`: grow if full, then physically store
`(len, elem)` at position `raw_len` exactly when `default != elem`;
`len` always increments. -/
def push (v : DefaultSparseVec α) (elem : α) : DefaultSparseVec α :=
  let v := v.growIfFull
  if v.default ≠ elem then
    { v with ind := v.ind ++ [v.len], val := v.val ++ [elem], len := v.len + 1 }
  else
    { v with len := v.len + 1 }

/-- `DefaultSparseVec::pop`: returns the popped element (`none` on the
empty vector) and the updated vector. When `raw_len == len` the code pops
the physically last stored entry, otherwise it returns a clone of the
default and only decrements `len`. -/
def pop (v : DefaultSparseVec α) : Option α × DefaultSparseVec α :=
  if v.len = 0 then (none, v)
  else if v.rawLen = v.len then
    (v.val.getLast?,
      { v with ind := v.ind.dropLast, val := v.val.dropLast, len := v.len - 1 })
  else
    (some v.default, { v with len := v.len - 1 })

/-- `DefaultSparseVec::get`. Out of bounds gives `none`; a found physical
position returns the stored value, otherwise the default. -/
def get (v : DefaultSparseVec α) (index : Nat) : Option α :=
  if index < v.len then
    match v.ind_binary_search index with
    | Except.ok i => some (v.val.getD i v.default)
    | Except.error _ => some v.default
  else none

/-- `DefaultSparseVec::get_mut`. Returns the physical position of the slot
the mutable reference points at, together with the updated vector. On a
miss it grows if full, shifts the tail `[i .. raw_len)` right by one and
writes `(index, default.clone())` at position `i`. -/
def get_mut (v : DefaultSparseVec α) (index : Nat) :
    Option (Nat × DefaultSparseVec α) :=
  if index < v.len then
    match v.ind_binary_search index with
    | Except.ok i => some (i, v)
    | Except.error i =>
      let v := v.growIfFull
      some (i,
        { v with
          ind := v.ind.take i ++ index :: v.ind.drop i,
          val := v.val.take i ++ v.default :: v.val.drop i })
  else none

/-- `DefaultSparseVec::insert`. `none` models the
`assert!(index <= self.len)` panic. The code increments `len`, grows if
full, locates the insertion position `i`, copies the physical tail
`[i .. raw_len)` one slot right, increments the index entries now at
positions `[i+1 .. raw_len]`, and finally writes `(index, elem)` at
position `i` and increments `raw_len` exactly when `elem != default`.
When `elem == default` the live region keeps its old length, so it ends at
the un-incremented stale copy at position `i` and loses the shifted last
entry at position `raw_len`. -/
def insert (v : DefaultSparseVec α) (index : Nat) (elem : α) :
    Option (DefaultSparseVec α) :=
  if index ≤ v.len then
    let v1 := { v with len := v.len + 1 }
    let v2 := v1.growIfFull
    let i :=
      match v2.ind_binary_search index with
      | Except.ok p => p
      | Except.error p => p
    some (if elem ≠ v2.default then
      { v2 with
        ind := v2.ind.take i ++ index :: (v2.ind.drop i).map (· + 1),
        val := v2.val.take i ++ elem :: v2.val.drop i }
    else
      { v2 with
        ind := v2.ind.take (i + 1) ++ ((v2.ind.drop i).map (· + 1)).dropLast,
        val := v2.val.take (i + 1) ++ (v2.val.drop i).dropLast })
  else none

/-- `DefaultSparseVec::remove`. `none` models the
`assert!(index < self.len)` panic. Decrements `len`; if the logical index
is physically present at `i`, reads it out, shifts the tail left and
decrements the shifted index entries; otherwise only decrements every
stored index at or after the insertion point. -/
def remove (v : DefaultSparseVec α) (index : Nat) :
    Option (α × DefaultSparseVec α) :=
  if index < v.len then
    let v1 := { v with len := v.len - 1 }
    some (match v1.ind_binary_search index with
    | Except.ok i =>
      (v1.val.getD i v1.default,
        { v1 with
          ind := v1.ind.take i ++ (v1.ind.drop (i + 1)).map (· - 1),
          val := v1.val.take i ++ v1.val.drop (i + 1) })
    | Except.error i =>
      (v1.default,
        { v1 with ind := v1.ind.take i ++ (v1.ind.drop i).map (· - 1) }))
  else none

/-- `DefaultSparseVec::reserve`: grow the capacity to
`raw_len + additional` when that exceeds the current capacity
(`re_cap_set` only reallocates; contents are preserved). -/
def reserve (v : DefaultSparseVec α) (additional : Nat) : DefaultSparseVec α :=
  let newCap := v.rawLen + additional
  if v.cap < newCap then { v with cap := newCap } else v

/-- `DefaultSparseVec::shrink_to_fit`: shrink the capacity to `raw_len`. -/
def shrink_to_fit (v : DefaultSparseVec α) : DefaultSparseVec α :=
  if v.rawLen < v.cap then { v with cap := v.rawLen } else v

/-- `<DefaultSparseVec as NormalVecMethods>::n_push`, translated verbatim:
note that its storing condition is `self.default == elem`, the opposite of
`push`'s. -/
def n_push (v : DefaultSparseVec α) (elem : α) : DefaultSparseVec α :=
  let v := v.growIfFull
  if v.default = elem then
    { v with ind := v.ind ++ [v.len], val := v.val ++ [elem], len := v.len + 1 }
  else
    { v with len := v.len + 1 }

/-- `impl From<Vec<T>> for DefaultSparseVec<T>`: push every element of the
dense vector in order, then `shrink_to_fit`. -/
def fromVec (d : α) (a : List α) : DefaultSparseVec α :=
  (a.foldl push (new d)).shrink_to_fit

/-- `impl Into<Vec<T>> for DefaultSparseVec<T>`: materialize
`get(0), …, get(len-1)` (each is `Some` since the index is in bounds;
`unwrap` is modelled by `Option.getD` with an irrelevant fallback). -/
def intoVec (v : DefaultSparseVec α) : List α :=
  (List.range v.len).map fun i => (v.get i).getD v.default

/-- `impl From<HashMap<usize, T>> for DefaultSparseVec<T>`, parameterized
by the order in which the map's pairs are iterated (Rust's `HashMap`
iteration order is unspecified): insert every pair, then `shrink_to_fit`.
`none` models an `insert` panic. -/
def fromPairs (d : α) (l : List (Nat × α)) : Option (DefaultSparseVec α) :=
  (l.foldlM (fun (acc : DefaultSparseVec α) p => acc.insert p.1 p.2)
    (new d)).map shrink_to_fit

/-- One step of the `while` loop of
`<DefaultSparseVec as Math>::u64_dot`, merging the two sparse iterators;
`u64` values and arithmetic are modelled as `Nat` reduced modulo `2^64`
(`u64` multiplication and `+=` wrap around). Fuel-indexed; every
iteration consumes at least one element of one list. -/
def dotGo : Nat → List (Nat × Nat) → List (Nat × Nat) → Nat → Nat
  | fuel + 1, (i, x) :: xs, (j, y) :: ys, sum =>
    if i < j then dotGo fuel xs ((j, y) :: ys) sum
    else if j < i then dotGo fuel ((i, x) :: xs) ys sum
    else dotGo fuel xs ys
      ((sum + (x * y) % 18446744073709551616) % 18446744073709551616)
  | _ + 1, _, _, sum => sum
  | 0, _, _, sum => sum

/-- `<DefaultSparseVec as Math>::u64_dot` at `T = u64`: sweep both sparse
`(index, value)` iterators (position-wise zips of the live regions). -/
def u64_dot (v w : DefaultSparseVec Nat) : Nat :=
  let xs := v.ind.zip v.val
  let ys := w.ind.zip w.val
  dotGo (xs.length + ys.length) xs ys 0

/-- Specification of a correct binary-search result on the index list `l`:
`ok p` must point at the index, `error p` must be the insertion position
(everything before it is `< index`, everything from it on is `> index`). -/
def searchOk (l : List Nat) (index : Nat) : Except Nat Nat → Prop
  | Except.ok p => l.get? p = some index
  | Except.error p =>
    p ≤ l.length ∧ (∀ q, q < p → l.getD q 0 < index) ∧
      ∀ q, p ≤ q → q < l.length → index < l.getD q 0

/-- The data-model invariants of §3 of the spec that the correctness
claims assume: the two live regions have equal length (positional
correspondence), the physical index array is strictly increasing, every
stored logical index is `< len`, no stored value equals the default, and
`raw_len ≤ len`. -/
def Inv (v : DefaultSparseVec α) : Prop :=
  v.val.length = v.ind.length ∧ v.ind.Sorted (· < ·) ∧
    (∀ j ∈ v.ind, j < v.len) ∧ (∀ x ∈ v.val, x ≠ v.default) ∧
    v.rawLen ≤ v.len

/-- The sparse encoding of the dense list `a` whose positions start at
logical index `n`: the `(logical index, value)` pairs of the entries that
differ from the default `d`, in increasing index order. This is the
reference model that `From<Vec<T>>` (a fold of `push`) is proved to
produce. -/
def encD (d : α) : Nat → List α → List (Nat × α)
  | _, [] => []
  | n, x :: xs =>
    if x = d then encD d (n + 1) xs else (n, x) :: encD d (n + 1) xs

/-- Association-list lookup with default 0 (first match wins), the
reference reading of a sparse `(index, value)` list at a logical index. -/
def alk : List (Nat × Nat) → Nat → Nat
  | [], _ => 0
  | (i, x) :: t, k => if i = k then x else alk t k

end DefaultSparseVec

/-- Model of `ZeroSparseVec<T>` from `src/vec/sparse_vec.rs`: logical
length, parallel index/value vectors and the default value. -/
structure ZeroSparseVec (α : Type) where
  len : Nat
  indices : List Nat
  values : List α
  default_value : α
deriving DecidableEq

namespace ZeroSparseVec

/-- Modelled from the contract of the Rust standard library's
`slice::binary_search` (an external primitive used by
`ZeroSparseVec::get_mut`): on a sorted slice it returns `Ok(p)` with
`self[p] == x` when the value is present, otherwise `Err(p)` with `p` the
sorted insertion position. Computed as the position of the first match,
or else the count of elements `< x`, which realizes that contract on
sorted input. -/
def stdBinarySearch (l : List Nat) (x : Nat) : Except Nat Nat :=
  if x ∈ l then Except.ok (l.indexOf x) else Except.error (l.countP (decide <| · < x))

/-- `ZeroSparseVec::get_mut`, translated verbatim: a found physical
position is returned as-is; a miss with `index < len` inserts
`(index, default_value.clone())` at the sorted position **and increments
`len`**; a miss with `index ≥ len` returns `None`. The result pairs the
physical position of the returned mutable slot with the updated vector. -/
def get_mut (v : ZeroSparseVec α) (index : Nat) :
    Option (Nat × ZeroSparseVec α) :=
  match stdBinarySearch v.indices index with
  | Except.ok pos => some (pos, v)
  | Except.error pos =>
    if index < v.len then
      some (pos,
        { v with
          indices := v.indices.insertIdx pos index,
          values := v.values.insertIdx pos v.default_value,
          len := v.len + 1 })
    else none

/-- `nnz` of `ZeroSparseVec`: the physical entry count. -/
def nnz (v : ZeroSparseVec α) : Nat := v.values.length

end ZeroSparseVec

/-! ## Binary-search correctness -/

namespace DefaultSparseVec

theorem sorted_getD_lt {l : List Nat} (hs : l.Sorted (· < ·)) {i j : Nat}
    (hij : i < j) (hj : j < l.length) : l.getD i 0 < l.getD j 0 := by
  have hi : i < l.length := hij.trans hj
  rw [List.getD_eq_getElem l 0 hi, List.getD_eq_getElem l 0 hj]
  have h := hs.rel_get_of_lt (show (⟨i, hi⟩ : Fin l.length) < ⟨j, hj⟩ from hij)
  simpa using h

theorem bsearchFin_spec {l : List Nat} {x : Nat} (hs : l.Sorted (· < ·))
    {left : Nat} (hlt : left < l.length)
    (hL : ∀ q, q < left → l.getD q 0 < x)
    (hR : ∀ q, left < q → q < l.length → x < l.getD q 0) :
    searchOk l x (bsearchFin l x left) := by
  unfold bsearchFin
  by_cases h1 : l.getD left 0 = x
  · simp only [h1, if_pos rfl]
    show l.get? left = some x
    rw [List.get?_eq_getElem?, List.getElem?_eq_getElem hlt]
    rw [List.getD_eq_getElem l 0 hlt] at h1
    simp [h1]
  · rw [if_neg h1]
    by_cases h2 : l.getD left 0 < x
    · rw [if_pos h2]
      refine ⟨hlt, ?_, ?_⟩
      · intro q hq
        rcases Nat.lt_or_ge q left with h | h
        · exact hL q h
        · have : q = left := Nat.le_antisymm (Nat.lt_succ_iff.mp hq) h
          simpa [this] using h2
      · intro q hq hql
        exact hR q hq hql
    · rw [if_neg h2]
      have hgt : x < l.getD left 0 :=
        Nat.lt_of_le_of_ne (Nat.le_of_not_lt h2) (fun h => h1 h.symm)
      refine ⟨Nat.le_of_lt hlt, hL, ?_⟩
      intro q hq hql
      rcases Nat.eq_or_lt_of_le hq with h | h
      · simpa [← h] using hgt
      · exact hR q h hql

theorem bsearchGo_spec {l : List Nat} {x : Nat} (hs : l.Sorted (· < ·)) :
    ∀ fuel left right, right < l.length → left ≤ right →
      (∀ q, q < left → l.getD q 0 < x) →
      (∀ q, right < q → q < l.length → x < l.getD q 0) →
      right - left ≤ fuel →
      searchOk l x (bsearchGo l x fuel left right) := by
  intro fuel
  induction fuel with
  | zero =>
    intro left right hrl hlr hL hR hf
    have : left = right := Nat.le_antisymm hlr (by omega)
    subst this
    exact bsearchFin_spec hs hrl hL (fun q hq hql => hR q hq hql)
  | succ fuel ih =>
    intro left right hrl hlr hL hR hf
    unfold bsearchGo
    by_cases hlt : left < right
    · rw [if_pos hlt]
      have hmid1 : left ≤ left + (right - left) / 2 := Nat.le_add_right _ _
      have hmid2 : left + (right - left) / 2 < right := by omega
      have hmidl : left + (right - left) / 2 < l.length := hmid2.trans hrl
      by_cases he : l.getD (left + (right - left) / 2) 0 = x
      · simp only [he, if_pos rfl]
        show l.get? _ = some x
        rw [List.get?_eq_getElem?, List.getElem?_eq_getElem hmidl]
        rw [List.getD_eq_getElem l 0 hmidl] at he
        simp [he]
      · rw [if_neg he]
        by_cases hlt2 : l.getD (left + (right - left) / 2) 0 < x
        · rw [if_pos hlt2]
          refine ih _ _ hrl (by omega) ?_ hR (by omega)
          intro q hq
          rcases Nat.lt_or_ge q (left + (right - left) / 2) with h | h
          · exact Nat.lt_of_lt_of_le (sorted_getD_lt hs h hmidl) (Nat.le_of_lt hlt2)
          · have : q = left + (right - left) / 2 := by omega
            simpa [this] using hlt2
        · rw [if_neg hlt2]
          have hgt : x < l.getD (left + (right - left) / 2) 0 :=
            Nat.lt_of_le_of_ne (Nat.le_of_not_lt hlt2) (fun h => he h.symm)
          refine ih _ _ hmidl hmid1 hL ?_ (by omega)
          intro q hq hql
          exact Nat.lt_trans hgt (sorted_getD_lt hs hq hql)
    · rw [if_neg hlt]
      have : left = right := Nat.le_antisymm hlr (Nat.le_of_not_lt hlt)
      subst this
      exact bsearchFin_spec hs hrl hL (fun q hq hql => hR q hq hql)

theorem ind_binary_search_spec {v : DefaultSparseVec α} {x : Nat}
    (hs : v.ind.Sorted (· < ·)) :
    searchOk v.ind x (v.ind_binary_search x) := by
  unfold ind_binary_search
  by_cases h0 : v.rawLen = 0
  · rw [if_pos h0]
    have : v.ind.length = 0 := h0
    exact ⟨by omega, fun q hq => by omega, fun q hq hql => by omega⟩
  · rw [if_neg h0]
    have hr : v.rawLen = v.ind.length := rfl
    have hpos : 0 < v.ind.length := Nat.pos_of_ne_zero h0
    refine bsearchGo_spec hs _ 0 (v.rawLen - 1) (by omega) (Nat.zero_le _)
      (fun q hq => by omega) ?_ (by omega)
    intro q hq hql
    exfalso
    omega

theorem search_found {v : DefaultSparseVec α} {x p : Nat}
    (hs : v.ind.Sorted (· < ·)) (h : v.ind_binary_search x = Except.ok p) :
    v.ind.get? p = some x := by
  have hspec := ind_binary_search_spec (v := v) (x := x) hs
  rw [h] at hspec
  exact hspec

theorem search_not_found {v : DefaultSparseVec α} {x p : Nat}
    (hs : v.ind.Sorted (· < ·)) (h : v.ind_binary_search x = Except.error p) :
    x ∉ v.ind ∧ p ≤ v.ind.length ∧ (∀ q, q < p → v.ind.getD q 0 < x) ∧
      ∀ q, p ≤ q → q < v.ind.length → x < v.ind.getD q 0 := by
  have hspec := ind_binary_search_spec (v := v) (x := x) hs
  rw [h] at hspec
  obtain ⟨hp, hL, hR⟩ := hspec
  refine ⟨?_, hp, hL, hR⟩
  intro hmem
  obtain ⟨q, hq⟩ := List.get_of_mem hmem
  have hql : (q : Nat) < v.ind.length := q.isLt
  have hgd : v.ind.getD q 0 = x := by
    rw [List.getD_eq_getElem _ 0 hql]
    simpa using congrArg id hq
  rcases Nat.lt_or_ge (q : Nat) p with hlt | hge
  · have := hL q hlt
    omega
  · have := hR q hge hql
    omega

theorem search_mem {v : DefaultSparseVec α} {x : Nat}
    (hs : v.ind.Sorted (· < ·)) (hx : x ∈ v.ind) :
    ∃ p, v.ind_binary_search x = Except.ok p ∧ v.ind.get? p = some x := by
  cases h : v.ind_binary_search x with
  | ok p => exact ⟨p, rfl, search_found hs h⟩
  | error p => exact absurd hx (search_not_found hs h).1

theorem search_gt_all {v : DefaultSparseVec α} {x : Nat}
    (hs : v.ind.Sorted (· < ·)) (hall : ∀ y ∈ v.ind, y < x) :
    v.ind_binary_search x = Except.error v.ind.length := by
  cases h : v.ind_binary_search x with
  | ok p =>
    have hp := search_found hs h
    have hmem : x ∈ v.ind := List.get?_mem hp
    exact absurd (hall x hmem) (Nat.lt_irrefl x)
  | error p =>
    obtain ⟨-, hp, -, hR⟩ := search_not_found hs h
    rcases Nat.eq_or_lt_of_le hp with he | hlt
    · rw [he]
    · exfalso
      have h1 := hR p (Nat.le_refl p) hlt
      have h2 : v.ind.getD p 0 ∈ v.ind := by
        rw [List.getD_eq_getElem _ 0 hlt]
        exact List.getElem_mem hlt
      have := hall _ h2
      omega

/-! ## `push` characterization, invariant preservation, and the sparse
encoding produced by `From<Vec<T>>` -/

theorem growIfFull_ind (v : DefaultSparseVec α) : v.growIfFull.ind = v.ind := by
  unfold growIfFull grow
  split <;> rfl

theorem growIfFull_val (v : DefaultSparseVec α) : v.growIfFull.val = v.val := by
  unfold growIfFull grow
  split <;> rfl

theorem growIfFull_len (v : DefaultSparseVec α) : v.growIfFull.len = v.len := by
  unfold growIfFull grow
  split <;> rfl

theorem growIfFull_default (v : DefaultSparseVec α) :
    v.growIfFull.default = v.default := by
  unfold growIfFull grow
  split <;> rfl

theorem push_ind (v : DefaultSparseVec α) (x : α) :
    (v.push x).ind = if v.default = x then v.ind else v.ind ++ [v.len] := by
  unfold push
  by_cases h : v.default = x
  · rw [if_pos h]
    have : ¬ v.growIfFull.default ≠ x := by
      rw [growIfFull_default]
      simpa using h
    rw [if_neg this]
    exact growIfFull_ind v
  · rw [if_neg h]
    have : v.growIfFull.default ≠ x := by
      rw [growIfFull_default]; exact h
    rw [if_pos this]
    simp [growIfFull_ind, growIfFull_len]

theorem push_val (v : DefaultSparseVec α) (x : α) :
    (v.push x).val = if v.default = x then v.val else v.val ++ [x] := by
  unfold push
  by_cases h : v.default = x
  · rw [if_pos h]
    have : ¬ v.growIfFull.default ≠ x := by
      rw [growIfFull_default]
      simpa using h
    rw [if_neg this]
    exact growIfFull_val v
  · rw [if_neg h]
    have : v.growIfFull.default ≠ x := by
      rw [growIfFull_default]; exact h
    rw [if_pos this]
    simp [growIfFull_val]

theorem push_len (v : DefaultSparseVec α) (x : α) :
    (v.push x).len = v.len + 1 := by
  unfold push
  by_cases h : v.growIfFull.default ≠ x
  · rw [if_pos h]
    simp [growIfFull_len]
  · rw [if_neg h]
    simp [growIfFull_len]

theorem push_default (v : DefaultSparseVec α) (x : α) :
    (v.push x).default = v.default := by
  unfold push
  by_cases h : v.growIfFull.default ≠ x
  · rw [if_pos h]
    simp [growIfFull_default]
  · rw [if_neg h]
    simp [growIfFull_default]

theorem shrink_to_fit_ind (v : DefaultSparseVec α) :
    v.shrink_to_fit.ind = v.ind := by
  unfold shrink_to_fit
  split <;> rfl

theorem shrink_to_fit_val (v : DefaultSparseVec α) :
    v.shrink_to_fit.val = v.val := by
  unfold shrink_to_fit
  split <;> rfl

theorem shrink_to_fit_len (v : DefaultSparseVec α) :
    v.shrink_to_fit.len = v.len := by
  unfold shrink_to_fit
  split <;> rfl

theorem shrink_to_fit_default (v : DefaultSparseVec α) :
    v.shrink_to_fit.default = v.default := by
  unfold shrink_to_fit
  split <;> rfl

theorem encD_nil (d : α) (n : Nat) : encD d n [] = [] := rfl

theorem encD_cons (d : α) (n : Nat) (x : α) (xs : List α) :
    encD d n (x :: xs) =
      if x = d then encD d (n + 1) xs else (n, x) :: encD d (n + 1) xs := rfl

theorem inv_push {v : DefaultSparseVec α} (hv : Inv v) (x : α) :
    Inv (v.push x) := by
  obtain ⟨hlen, hs, hb, hd, hr⟩ := hv
  have hr2 : v.ind.length ≤ v.len := hr
  unfold Inv rawLen
  rw [push_ind, push_val, push_len, push_default]
  by_cases h : v.default = x
  · rw [if_pos h, if_pos h]
    exact ⟨hlen, hs, fun j hj => Nat.lt_succ_of_lt (hb j hj), hd, by omega⟩
  · rw [if_neg h, if_neg h]
    refine ⟨by simp [hlen], ?_, ?_, ?_, ?_⟩
    · rw [List.Sorted, List.pairwise_append]
      exact ⟨hs, List.pairwise_singleton _ _, fun a ha b hb' => by
        simp at hb'
        rw [hb']
        exact hb a ha⟩
    · intro j hj
      rcases List.mem_append.mp hj with hj | hj
      · exact Nat.lt_succ_of_lt (hb j hj)
      · simp at hj
        omega
    · intro y hy
      rcases List.mem_append.mp hy with hy | hy
      · exact hd y hy
      · simp at hy
        rw [hy]
        exact fun hc => h hc.symm
    · simp only [List.length_append, List.length_singleton]
      omega

theorem inv_new (d : α) : Inv (new d) := by
  refine ⟨rfl, List.sorted_nil, ?_, ?_, Nat.le_refl 0⟩ <;> simp [new]

theorem foldl_push_spec (a : List α) :
    ∀ v : DefaultSparseVec α,
      (a.foldl push v).ind = v.ind ++ (encD v.default v.len a).map Prod.fst ∧
      (a.foldl push v).val = v.val ++ (encD v.default v.len a).map Prod.snd ∧
      (a.foldl push v).len = v.len + a.length ∧
      (a.foldl push v).default = v.default := by
  induction a with
  | nil => intro v; simp [encD]
  | cons x xs ih =>
    intro v
    obtain ⟨h1, h2, h3, h4⟩ := ih (v.push x)
    rw [List.foldl_cons, encD_cons]
    by_cases h : x = v.default
    · rw [if_pos h]
      have hd : v.default = x := h.symm
      refine ⟨?_, ?_, ?_, ?_⟩
      · rw [h1, push_ind, push_default, push_len, if_pos hd]
      · rw [h2, push_val, push_default, push_len, if_pos hd]
      · rw [h3, push_len]
        simp only [List.length_cons]
        omega
      · rw [h4, push_default]
    · rw [if_neg h]
      have hd : ¬ v.default = x := fun hc => h hc.symm
      refine ⟨?_, ?_, ?_, ?_⟩
      · rw [h1, push_ind, push_default, push_len, if_neg hd]
        simp
      · rw [h2, push_val, push_default, push_len, if_neg hd]
        simp
      · rw [h3, push_len]
        simp only [List.length_cons]
        omega
      · rw [h4, push_default]

theorem fromVec_spec (d : α) (a : List α) :
    (fromVec d a).ind = (encD d 0 a).map Prod.fst ∧
    (fromVec d a).val = (encD d 0 a).map Prod.snd ∧
    (fromVec d a).len = a.length ∧
    (fromVec d a).default = d := by
  obtain ⟨h1, h2, h3, h4⟩ := foldl_push_spec a (new d)
  unfold fromVec
  rw [shrink_to_fit_ind, shrink_to_fit_val, shrink_to_fit_len,
    shrink_to_fit_default, h1, h2, h3, h4]
  exact ⟨by simp [new], by simp [new], by simp [new], rfl⟩

theorem encD_mem_elim {d : α} :
    ∀ {n : Nat} {a : List α} {p : Nat × α}, p ∈ encD d n a →
      n ≤ p.1 ∧ p.1 - n < a.length ∧ p.2 = a.getD (p.1 - n) d ∧ p.2 ≠ d := by
  intro n a
  induction a generalizing n with
  | nil => intro p hp; simp [encD_nil] at hp
  | cons x xs ih =>
    intro p hp
    rw [encD_cons] at hp
    by_cases h : x = d
    · rw [if_pos h] at hp
      obtain ⟨h1, h2, h3, h4⟩ := ih hp
      refine ⟨by omega, by simp; omega, ?_, h4⟩
      have hk : p.1 - n = (p.1 - (n + 1)) + 1 := by omega
      rw [hk, List.getD_cons_succ, h3]
    · rw [if_neg h] at hp
      rcases List.mem_cons.mp hp with hp | hp
      · rw [hp]
        simp
        exact h
      · obtain ⟨h1, h2, h3, h4⟩ := ih hp
        refine ⟨by omega, by simp; omega, ?_, h4⟩
        have hk : p.1 - n = (p.1 - (n + 1)) + 1 := by omega
        rw [hk, List.getD_cons_succ, h3]

theorem encD_mem_intro {d : α} :
    ∀ {n : Nat} {a : List α} {k : Nat}, k < a.length → a.getD k d ≠ d →
      (n + k, a.getD k d) ∈ encD d n a := by
  intro n a
  induction a generalizing n with
  | nil => intro k hk; simp at hk
  | cons x xs ih =>
    intro k hk hne
    rw [encD_cons]
    cases k with
    | zero =>
      rw [List.getD_cons_zero] at hne ⊢
      rw [if_neg hne]
      simp
    | succ k' =>
      rw [List.getD_cons_succ] at hne ⊢
      have hk' : k' < xs.length := by simp at hk; omega
      have := ih (n := n + 1) hk' hne
      have harith : n + (k' + 1) = (n + 1) + k' := by omega
      by_cases h : x = d
      · rw [if_pos h, harith]
        exact this
      · rw [if_neg h]
        rw [harith]
        exact List.mem_cons_of_mem _ this

theorem encD_pairwise (d : α) :
    ∀ (n : Nat) (a : List α),
      List.Pairwise (fun p q : Nat × α => p.1 < q.1) (encD d n a) := by
  intro n a
  induction a generalizing n with
  | nil => simp [encD_nil]
  | cons x xs ih =>
    rw [encD_cons]
    by_cases h : x = d
    · rw [if_pos h]
      exact ih (n + 1)
    · rw [if_neg h]
      refine List.pairwise_cons.mpr ⟨?_, ih (n + 1)⟩
      intro p hp
      have := encD_mem_elim hp
      omega

theorem pairwise_fst_unique {L : List (Nat × α)}
    (hL : List.Pairwise (fun p q : Nat × α => p.1 < q.1) L)
    {i : Nat} {x y : α} (hx : (i, x) ∈ L) (hy : (i, y) ∈ L) : x = y := by
  induction L with
  | nil => simp at hx
  | cons p t ih =>
    obtain ⟨hhead, htail⟩ := List.pairwise_cons.mp hL
    rcases List.mem_cons.mp hx with hx | hx <;>
      rcases List.mem_cons.mp hy with hy | hy
    · rw [← hx] at hy
      exact (Prod.mk.injEq _ _ _ _ ▸ hy.symm).2
    · exfalso
      have := hhead _ hy
      rw [← hx] at this
      exact Nat.lt_irrefl i this
    · exfalso
      have := hhead _ hx
      rw [← hy] at this
      exact Nat.lt_irrefl i this
    · exact ih htail hx hy

theorem inv_fromVec (d : α) (a : List α) : Inv (fromVec d a) := by
  obtain ⟨h1, h2, h3, h4⟩ := fromVec_spec d a
  refine ⟨?_, ?_, ?_, ?_, ?_⟩
  · rw [h1, h2]
    simp
  · rw [h1, List.Sorted]
    rw [List.pairwise_map]
    exact encD_pairwise d 0 a
  · intro j hj
    rw [h1] at hj
    rw [h3]
    obtain ⟨p, hp, hfst⟩ := List.mem_map.mp hj
    have := encD_mem_elim hp
    omega
  · intro x hx
    rw [h2] at hx
    rw [h4]
    obtain ⟨p, hp, hsnd⟩ := List.mem_map.mp hx
    have := encD_mem_elim hp
    rw [← hsnd]
    exact this.2.2.2
  · show (fromVec d a).ind.length ≤ _
    rw [h1, h3]
    have : ∀ (n : Nat) (l : List α), (encD d n l).length ≤ l.length := by
      intro n l
      induction l generalizing n with
      | nil => simp [encD_nil]
      | cons x xs ih =>
        rw [encD_cons]
        by_cases h : x = d
        · rw [if_pos h]
          calc (encD d (n + 1) xs).length ≤ xs.length := ih (n + 1)
            _ ≤ (x :: xs).length := by simp
        · rw [if_neg h]
          simp only [List.length_cons, List.length_map]
          exact Nat.succ_le_succ (ih (n + 1))
    simpa using this 0 a

theorem get_fromVec (d : α) (a : List α) {i : Nat} (h : i < a.length) :
    (fromVec d a).get i = some (a.getD i d) := by
  obtain ⟨h1, h2, h3, h4⟩ := fromVec_spec d a
  have hs : (fromVec d a).ind.Sorted (· < ·) := (inv_fromVec d a).2.1
  have hlt : i < (fromVec d a).len := by rw [h3]; exact h
  unfold get
  rw [if_pos hlt]
  by_cases hne : a.getD i d = d
  · have hnot : i ∉ (fromVec d a).ind := by
      rw [h1]
      intro hmem
      obtain ⟨p, hp, hfst⟩ := List.mem_map.mp hmem
      obtain ⟨hn, hlen2, hval, hnd⟩ := encD_mem_elim hp
      apply hnd
      have : p.2 = a.getD i d := by
        rw [hval, hfst]
        simp
      exact this.trans hne
    cases hsr : (fromVec d a).ind_binary_search i with
    | ok p =>
      exact absurd (List.get?_mem (search_found hs hsr)) hnot
    | error p =>
      show some (fromVec d a).default = some (a.getD i d)
      rw [h4, hne]
  · have hmem : (i, a.getD i d) ∈ encD d 0 a := by
      have := encD_mem_intro (n := 0) h hne
      simpa using this
    have himem : i ∈ (fromVec d a).ind := by
      rw [h1]
      exact List.mem_map.mpr ⟨_, hmem, rfl⟩
    obtain ⟨p, hok, hp⟩ := search_mem hs himem
    rw [hok]
    show some ((fromVec d a).val.getD p (fromVec d a).default) = some (a.getD i d)
    have hpL : p < (encD d 0 a).length := by
      have hlen1 : (fromVec d a).ind.length = (encD d 0 a).length := by
        rw [h1]
        simp
      have : p < (fromVec d a).ind.length := by
        rw [List.get?_eq_getElem?] at hp
        exact (List.getElem?_eq_some.mp hp).1
      omega
    obtain ⟨q, hqp, hqi⟩ : ∃ q, (encD d 0 a)[p]? = some q ∧ q.1 = i := by
      rw [h1, List.get?_eq_getElem?, List.getElem?_map] at hp
      cases hq : (encD d 0 a)[p]? with
      | none => rw [hq] at hp; simp at hp
      | some q =>
        rw [hq] at hp
        simp at hp
        exact ⟨q, rfl, hp⟩
    have hq7 : (encD d 0 a)[p] = q :=
      Option.some.inj ((List.getElem?_eq_getElem hpL).symm.trans hqp)
    have hqmem : q ∈ encD d 0 a := by
      rw [← hq7]
      exact List.getElem_mem hpL
    have hq2 : q.2 = a.getD i d := by
      refine pairwise_fst_unique (encD_pairwise d 0 a) ?_ hmem
      have hqeta : ((q.1, q.2) : Nat × α) = q := rfl
      rw [← hqi, hqeta]
      exact hqmem
    have hplen2 : p < ((encD d 0 a).map Prod.snd).length := by
      simp only [List.length_map]
      exact hpL
    rw [h2, List.getD_eq_getElem _ _ hplen2, List.getElem_map, hq7, hq2]

/-- **C7**: converting any dense sequence to a `DefaultSparseVec`
(`From<Vec<T>>`, a fold of `push` which elides default elements) and back
to a dense sequence (`Into<Vec<T>>`, materializing every logical position
through `get`) reproduces the original sequence exactly. -/
theorem C7_dense_sparse_roundtrip (d : α) (a : List α) :
    intoVec (fromVec d a) = a := by
  obtain ⟨h1, h2, h3, h4⟩ := fromVec_spec d a
  unfold intoVec
  refine List.ext_get ?_ ?_
  · simp [h3]
  · intro n hn1 hn2
    have hn : n < a.length := hn2
    simp only [List.get_eq_getElem, List.getElem_map, List.getElem_range]
    rw [get_fromVec d a hn]
    simp only [Option.getD_some]
    exact (List.getD_eq_getElem a d hn).symm ▸ rfl

theorem eq_of_fields {v w : DefaultSparseVec α} (h1 : v.ind = w.ind)
    (h2 : v.val = w.val) (h3 : v.len = w.len) (h4 : v.default = w.default)
    (h5 : v.cap = w.cap) : v = w := by
  cases v
  cases w
  simp_all

theorem push_cap (v : DefaultSparseVec α) (x : α) :
    (v.push x).cap = v.growIfFull.cap := by
  unfold push
  by_cases h : v.growIfFull.default ≠ x
  · rw [if_pos h]
  · rw [if_neg h]

theorem insert_len_push {v : DefaultSparseVec α} (hv : Inv v) (x : α) :
    v.insert v.len x = some (v.push x) := by
  obtain ⟨hlen, hs, hb, hd, hr⟩ := hv
  have hwind : ({ v with len := v.len + 1 } : DefaultSparseVec α).growIfFull.ind
      = v.ind := growIfFull_ind _
  have hwval : ({ v with len := v.len + 1 } : DefaultSparseVec α).growIfFull.val
      = v.val := growIfFull_val _
  have hwdft : ({ v with len := v.len + 1 } :
      DefaultSparseVec α).growIfFull.default = v.default := growIfFull_default _
  have hwlen : ({ v with len := v.len + 1 } : DefaultSparseVec α).growIfFull.len
      = v.len + 1 := growIfFull_len _
  have hwcap : ({ v with len := v.len + 1 } : DefaultSparseVec α).growIfFull.cap
      = v.growIfFull.cap := by
    simp only [growIfFull, rawLen, grow]
    by_cases hc : v.ind.length = v.cap
    · rw [if_pos hc, if_pos hc]
    · rw [if_neg hc, if_neg hc]
  have hsearch : ({ v with len := v.len + 1 } :
      DefaultSparseVec α).growIfFull.ind_binary_search v.len
        = Except.error v.ind.length := by
    have hsW : ({ v with len := v.len + 1 } :
        DefaultSparseVec α).growIfFull.ind.Sorted (· < ·) := by
      rw [hwind]
      exact hs
    have h := search_gt_all hsW (by rw [hwind]; exact hb)
    rw [hwind] at h
    exact h
  have hle : v.len ≤ v.len := Nat.le_refl v.len
  simp only [insert, if_pos hle, hsearch]
  refine congrArg some ?_
  have htakeI : ∀ n, v.ind.length ≤ n → v.ind.take n = v.ind := fun n h =>
    List.take_of_length_le h
  have htakeV : ∀ n, v.ind.length ≤ n → v.val.take n = v.val := fun n h =>
    List.take_of_length_le (by omega)
  have hdropI : v.ind.drop v.ind.length = [] :=
    List.drop_eq_nil_of_le (Nat.le_refl _)
  have hdropV : v.val.drop v.ind.length = [] :=
    List.drop_eq_nil_of_le (by omega)
  by_cases hx : x = v.default
  · have hxw : ¬ x ≠ ({ v with len := v.len + 1 } :
        DefaultSparseVec α).growIfFull.default := by
      rw [hwdft]
      simpa using hx
    rw [if_neg hxw]
    refine eq_of_fields ?_ ?_ ?_ ?_ ?_
    · rw [push_ind, if_pos (hx.symm)]
      rw [hwind, htakeI _ (Nat.le_succ _), hdropI]
      simp
    · rw [push_val, if_pos (hx.symm)]
      rw [hwval, hwind, htakeV _ (Nat.le_succ _), hdropV]
      simp
    · rw [push_len, hwlen]
    · rw [push_default, hwdft]
    · rw [push_cap, hwcap]
  · have hxw : x ≠ ({ v with len := v.len + 1 } :
        DefaultSparseVec α).growIfFull.default := by
      rw [hwdft]
      exact hx
    rw [if_pos hxw]
    refine eq_of_fields ?_ ?_ ?_ ?_ ?_
    · rw [push_ind, if_neg (fun hc => hx hc.symm)]
      rw [hwind, htakeI _ (Nat.le_refl _), hdropI]
      simp
    · rw [push_val, if_neg (fun hc => hx hc.symm)]
      rw [hwval, hwind, htakeV _ (Nat.le_refl _), hdropV]
    · rw [push_len, hwlen]
    · rw [push_default, hwdft]
    · rw [push_cap, hwcap]

theorem foldlM_insert_enumFrom (xs : List α) :
    ∀ v : DefaultSparseVec α, Inv v →
      List.foldlM (fun (acc : DefaultSparseVec α) p => acc.insert p.1 p.2)
        v (List.enumFrom v.len xs) = some (xs.foldl push v) := by
  induction xs with
  | nil => intro v hv; rfl
  | cons x xs ih =>
    intro v hv
    have hcons : List.enumFrom v.len (x :: xs)
        = (v.len, x) :: List.enumFrom (v.len + 1) xs := rfl
    rw [hcons]
    show (v.insert v.len x).bind _ = _
    rw [insert_len_push hv x, Option.some_bind, List.foldl_cons]
    have hlen : v.len + 1 = (v.push x).len := (push_len v x).symm
    rw [hlen]
    exact ih (v.push x) (inv_push hv x)

/-- **C6 (amended)**: when the pairs of the mapping are inserted in
increasing logical-index order and the key set is exactly
`{0, …, n−1}` (i.e. the pairs are `(0, a₀), …, (n−1, aₙ₋₁)`), the
`From<HashMap>` construction succeeds and produces exactly the vector
obtained by the dense conversion `From<Vec>` of `[a₀, …, aₙ₋₁]`. In
general the construction is order-sensitive and can panic (see the
counterexample). -/
theorem C6_fromPairs_enum_amended (d : α) (a : List α) :
    fromPairs d (List.enum a) = some (fromVec d a) := by
  unfold fromPairs fromVec
  have h0 : List.enum a = List.enumFrom (new d).len a := rfl
  rw [h0, foldlM_insert_enumFrom a (new d) (inv_new d)]
  rfl

/-- **C6 (counterexample)**: the claim that `From<HashMap<usize, T>>`
succeeds for every finite mapping and yields the same vector for every
insertion order is false: for the two-pair mapping `{0 ↦ 1, 1 ↦ 2}`,
inserting in the order `(1, 2), (0, 1)` panics inside `insert`
(`assert!(index <= self.len)` fails since `1 > 0`), while the order
`(0, 1), (1, 2)` succeeds — so the result depends on the iteration order
of the `HashMap`. -/
theorem C6_order_dependent_counterexample :
    fromPairs (0 : Nat) [(1, 2), (0, 1)] = none ∧
      fromPairs (0 : Nat) [(0, 1), (1, 2)] ≠ none ∧
      fromPairs (0 : Nat) [(1, 2), (0, 1)] ≠
        fromPairs (0 : Nat) [(0, 1), (1, 2)] := by
  refine ⟨by decide, by decide, by decide⟩

/-! ## The merge-sweep dot product -/

theorem alk_nil (k : Nat) : alk [] k = 0 := rfl

theorem alk_cons (i x : Nat) (t : List (Nat × Nat)) (k : Nat) :
    alk ((i, x) :: t) k = if i = k then x else alk t k := rfl

theorem alk_eq_zero {l : List (Nat × Nat)} {k : Nat}
    (h : ∀ p ∈ l, p.1 ≠ k) : alk l k = 0 := by
  induction l with
  | nil => rfl
  | cons p t ih =>
    obtain ⟨i, x⟩ := p
    rw [alk_cons, if_neg (h (i, x) (List.mem_cons_self _ _))]
    exact ih fun q hq => h q (List.mem_cons_of_mem _ hq)

theorem dotGo_zero (xs ys : List (Nat × Nat)) (sum : Nat) :
    dotGo 0 xs ys sum = sum := rfl

theorem dotGo_nil_left (fuel : Nat) (ys : List (Nat × Nat)) (sum : Nat) :
    dotGo (fuel + 1) [] ys sum = sum := by
  rcases ys with _ | ⟨⟨j, y⟩, ys⟩ <;> rfl

theorem dotGo_nil_right (fuel : Nat) (xs : List (Nat × Nat)) (sum : Nat) :
    dotGo (fuel + 1) xs [] sum = sum := by
  rcases xs with _ | ⟨⟨i, x⟩, xs⟩ <;> rfl

theorem dotGo_cons_cons (fuel i x j y : Nat) (xs ys : List (Nat × Nat))
    (sum : Nat) :
    dotGo (fuel + 1) ((i, x) :: xs) ((j, y) :: ys) sum =
      if i < j then dotGo fuel xs ((j, y) :: ys) sum
      else if j < i then dotGo fuel ((i, x) :: xs) ys sum
      else dotGo fuel xs ys
        ((sum + (x * y) % 18446744073709551616) % 18446744073709551616) := rfl

theorem dotGo_spec (N : Nat) :
    ∀ (fuel : Nat) (xs ys : List (Nat × Nat)) (sum : Nat),
      xs.length + ys.length ≤ fuel →
      List.Pairwise (fun p q : Nat × Nat => p.1 < q.1) xs →
      List.Pairwise (fun p q : Nat × Nat => p.1 < q.1) ys →
      (∀ p ∈ xs, p.1 < N) → (∀ p ∈ ys, p.1 < N) →
      sum < 18446744073709551616 →
      dotGo fuel xs ys sum =
        (sum + ∑ k in Finset.range N, alk xs k * alk ys k) %
          18446744073709551616 := by
  intro fuel
  induction fuel with
  | zero =>
    intro xs ys sum hf hxs hys hbx hby hsum
    have hx0 : xs = [] := List.eq_nil_of_length_eq_zero (by omega)
    rw [hx0, dotGo_zero]
    simp only [alk_nil, Nat.zero_mul, Finset.sum_const_zero, Nat.add_zero]
    exact (Nat.mod_eq_of_lt hsum).symm
  | succ fuel ih =>
    intro xs ys sum hf hxs hys hbx hby hsum
    rcases xs with _ | ⟨⟨i, x⟩, xs⟩
    · rw [dotGo_nil_left]
      simp only [alk_nil, Nat.zero_mul, Finset.sum_const_zero, Nat.add_zero]
      exact (Nat.mod_eq_of_lt hsum).symm
    rcases ys with _ | ⟨⟨j, y⟩, ys⟩
    · rw [dotGo_nil_right]
      simp only [alk_nil, Nat.mul_zero, Finset.sum_const_zero, Nat.add_zero]
      exact (Nat.mod_eq_of_lt hsum).symm
    obtain ⟨hxhead, hxtail⟩ := List.pairwise_cons.mp hxs
    obtain ⟨hyhead, hytail⟩ := List.pairwise_cons.mp hys
    have hbx' : ∀ p ∈ xs, p.1 < N := fun p hp =>
      hbx p (List.mem_cons_of_mem _ hp)
    have hby' : ∀ p ∈ ys, p.1 < N := fun p hp =>
      hby p (List.mem_cons_of_mem _ hp)
    have hfx : xs.length + ((j, y) :: ys).length ≤ fuel := by
      simp only [List.length_cons] at hf ⊢
      omega
    have hfy : ((i, x) :: xs).length + ys.length ≤ fuel := by
      simp only [List.length_cons] at hf ⊢
      omega
    have hfxy : xs.length + ys.length ≤ fuel := by
      simp only [List.length_cons] at hf
      omega
    rw [dotGo_cons_cons]
    rcases Nat.lt_trichotomy i j with hij | hij | hij
    · rw [if_pos hij]
      rw [ih xs ((j, y) :: ys) sum hfx hxtail hys hbx' hby hsum]
      have hsame : ∀ k ∈ Finset.range N,
          alk xs k * alk ((j, y) :: ys) k =
            alk ((i, x) :: xs) k * alk ((j, y) :: ys) k := by
        intro k hk
        by_cases hki : k = i
        · subst hki
          have h1 : alk xs k = 0 := alk_eq_zero fun p hp => by
            have := hxhead p hp
            omega
          have h2 : alk ((j, y) :: ys) k = 0 := alk_eq_zero fun p hp => by
            rcases List.mem_cons.mp hp with hp | hp
            · rw [hp]
              omega
            · have := hyhead p hp
              omega
          rw [h1, h2]
          simp
        · rw [alk_cons i x xs k, if_neg fun h => hki h.symm]
      rw [Finset.sum_congr rfl hsame]
    · rw [if_neg (by omega), if_neg (by omega)]
      have hiN : i < N := hbx (i, x) (List.mem_cons_self _ _)
      subst hij
      have hsum2 : (sum + x * y % 18446744073709551616) %
          18446744073709551616 < 18446744073709551616 :=
        Nat.mod_lt _ (by norm_num)
      rw [ih xs ys _ hfxy hxtail hytail hbx' hby' hsum2]
      have hSfull : (∑ k in Finset.range N,
          alk ((i, x) :: xs) k * alk ((i, y) :: ys) k)
          = x * y + ∑ k in Finset.range N, alk xs k * alk ys k := by
        have hpoint : ∀ k ∈ Finset.range N,
            alk ((i, x) :: xs) k * alk ((i, y) :: ys) k
              = alk xs k * alk ys k + (if k = i then x * y else 0) := by
          intro k hk
          by_cases hki : k = i
          · subst hki
            rw [alk_cons, alk_cons, if_pos rfl, if_pos rfl, if_pos rfl]
            have h1 : alk xs k = 0 := alk_eq_zero fun p hp => by
              have := hxhead p hp
              omega
            have h2 : alk ys k = 0 := alk_eq_zero fun p hp => by
              have := hyhead p hp
              omega
            rw [h1, h2]
            simp
          · rw [alk_cons, alk_cons, if_neg fun h => hki h.symm,
              if_neg fun h => hki h.symm, if_neg hki]
            simp
        rw [Finset.sum_congr rfl hpoint, Finset.sum_add_distrib,
          Finset.sum_ite_eq' (Finset.range N) i fun _ => x * y,
          if_pos (Finset.mem_range.mpr hiN)]
        omega
      rw [hSfull]
      rw [Nat.mod_add_mod]
      have hcong : sum + x * y % 18446744073709551616 +
            (∑ k in Finset.range N, alk xs k * alk ys k)
          ≡ sum + x * y + (∑ k in Finset.range N, alk xs k * alk ys k)
            [MOD 18446744073709551616] :=
        Nat.ModEq.add_right _ (Nat.ModEq.add_left _ (Nat.mod_modEq _ _))
      rw [show sum + (x * y + ∑ k in Finset.range N, alk xs k * alk ys k)
          = sum + x * y + ∑ k in Finset.range N, alk xs k * alk ys k from by
        omega]
      exact hcong
    · rw [if_neg (by omega), if_pos hij]
      rw [ih ((i, x) :: xs) ys sum hfy hxs hytail hbx hby' hsum]
      have hsame : ∀ k ∈ Finset.range N,
          alk ((i, x) :: xs) k * alk ys k =
            alk ((i, x) :: xs) k * alk ((j, y) :: ys) k := by
        intro k hk
        by_cases hkj : k = j
        · subst hkj
          have h1 : alk ys k = 0 := alk_eq_zero fun p hp => by
            have := hyhead p hp
            omega
          have h2 : alk ((i, x) :: xs) k = 0 := alk_eq_zero fun p hp => by
            rcases List.mem_cons.mp hp with hp | hp
            · rw [hp]
              omega
            · have := hxhead p hp
              omega
          rw [h1, h2]
          simp
        · rw [alk_cons j y ys k, if_neg fun h => hkj h.symm]
      rw [Finset.sum_congr rfl hsame]

theorem alk_encD (a : List Nat) :
    ∀ n k, alk (encD 0 n a) (n + k) = a.getD k 0 := by
  induction a with
  | nil =>
    intro n k
    rw [encD_nil, alk_nil, List.getD_nil]
  | cons x xs ih =>
    intro n k
    rw [encD_cons]
    by_cases hx : x = 0
    · rw [if_pos hx]
      cases k with
      | zero =>
        rw [Nat.add_zero, List.getD_cons_zero, hx]
        refine alk_eq_zero fun p hp => ?_
        have := encD_mem_elim hp
        omega
      | succ k' =>
        rw [List.getD_cons_succ]
        have harith : n + (k' + 1) = (n + 1) + k' := by omega
        rw [harith]
        exact ih (n + 1) k'
    · rw [if_neg hx]
      cases k with
      | zero =>
        rw [alk_cons, if_pos (show n = n + 0 by omega), List.getD_cons_zero]
      | succ k' =>
        rw [List.getD_cons_succ, alk_cons, if_neg (by omega)]
        have harith : n + (k' + 1) = (n + 1) + k' := by omega
        rw [harith]
        exact ih (n + 1) k'

theorem zip_fst_snd (L : List (Nat × Nat)) :
    (L.map Prod.fst).zip (L.map Prod.snd) = L := by
  have h := List.zip_unzip L
  rw [List.unzip_eq_map] at h
  exact h

/-- **C8**: for two dense sequences `a`, `b` of equal length over the
unsigned 64-bit element type with `default = 0`, the merge-sweep sparse
dot product `u64_dot` of their sparse conversions equals the reference
sum `Σ a[k]·b[k]`, as exact arithmetic modulo `2^64`. -/
theorem C8_u64_dot_correct (a b : List Nat) (hab : a.length = b.length) :
    u64_dot (fromVec 0 a) (fromVec 0 b) =
      (∑ k in Finset.range a.length, a.getD k 0 * b.getD k 0) % 2 ^ 64 := by
  obtain ⟨ha1, ha2, ha3, ha4⟩ := fromVec_spec 0 a
  obtain ⟨hb1, hb2, hb3, hb4⟩ := fromVec_spec 0 b
  have hM : (2 ^ 64 : Nat) = 18446744073709551616 := by norm_num
  unfold u64_dot
  rw [ha1, ha2, hb1, hb2, zip_fst_snd, zip_fst_snd]
  have hbnda : ∀ p ∈ encD 0 0 a, p.1 < a.length := fun p hp => by
    have := encD_mem_elim hp
    omega
  have hbndb : ∀ p ∈ encD 0 0 b, p.1 < a.length := fun p hp => by
    have := encD_mem_elim hp
    omega
  rw [dotGo_spec a.length ((encD 0 0 a).length + (encD 0 0 b).length)
    (encD 0 0 a) (encD 0 0 b) 0 (Nat.le_refl _) (encD_pairwise 0 0 a)
    (encD_pairwise 0 0 b) hbnda hbndb (by norm_num)]
  rw [Nat.zero_add, hM]
  refine congrArg (· % 18446744073709551616) ?_
  refine Finset.sum_congr rfl fun k hk => ?_
  have hka : alk (encD 0 0 a) k = a.getD k 0 := by
    have := alk_encD a 0 k
    rwa [Nat.zero_add] at this
  have hkb : alk (encD 0 0 b) k = b.getD k 0 := by
    have := alk_encD b 0 k
    rwa [Nat.zero_add] at this
  rw [hka, hkb]

/-- Witness for C8: the theorem applied at the concrete equal-length
sequences `[1, 0, 3]` and `[2, 5, 4]`. -/
theorem C8_u64_dot_correct_witness :
    ([1, 0, 3] : List Nat).length = ([2, 5, 4] : List Nat).length ∧
      u64_dot (fromVec 0 [1, 0, 3]) (fromVec 0 [2, 5, 4]) =
        (∑ k in Finset.range ([1, 0, 3] : List Nat).length,
          ([1, 0, 3] : List Nat).getD k 0 * ([2, 5, 4] : List Nat).getD k 0) %
          2 ^ 64 :=
  ⟨rfl, C8_u64_dot_correct [1, 0, 3] [2, 5, 4] rfl⟩

/-! ## Frame property of `reserve`, and the concrete failing runs
exhibiting the `pop`/`insert`/`n_push`/`get_mut` bugs -/

/-- **C10**: for every `DefaultSparseVec` and every `additional`,
`reserve(additional)` leaves `len`, `raw_len` and every stored
`(index, value)` pair unchanged, never decreases the capacity, and
afterwards `capacity() ≥ raw_len + additional`. -/
theorem C10_reserve_frame (v : DefaultSparseVec α) (additional : Nat) :
    (v.reserve additional).len = v.len ∧
      (v.reserve additional).rawLen = v.rawLen ∧
      (v.reserve additional).ind = v.ind ∧
      (v.reserve additional).val = v.val ∧
      v.cap ≤ (v.reserve additional).cap ∧
      v.rawLen + additional ≤ (v.reserve additional).cap := by
  simp only [reserve, rawLen]
  by_cases h : v.cap < v.ind.length + additional
  · rw [if_pos h]
    refine ⟨rfl, rfl, rfl, rfl, ?_, ?_⟩
    · show v.cap ≤ v.ind.length + additional
      omega
    · show v.ind.length + additional ≤ v.ind.length + additional
      omega
  · rw [if_neg h]
    exact ⟨rfl, rfl, rfl, rfl, Nat.le_refl _, by omega⟩

/-- **C1 (failing run)**: the claim `raw_len ≤ len` after every operation
fails on the code. Starting from the empty vector with default `0`, the
operation sequence `push 0; push 5; pop; remove 0` — every call within
its precondition — ends with `raw_len = 1 > 0 = len`: the buggy `pop`
(condition `raw_len == len`) returns the default and strands the stored
entry `(1, 5)`, and the subsequent `remove` keeps it while `len` drops
to `0`. (Additionally, `pop` on the empty vector changes `len` by `0`,
not `±1`.) -/
theorem C1_raw_len_exceeds_len :
    ((((new (0 : Nat)).push 0).push 5).pop.2.remove 0
        = some (0, ⟨[0], [5], 0, 0, 1⟩)) ∧
      ¬ rawLen (⟨[0], [5], 0, 0, 1⟩ : DefaultSparseVec Nat) ≤
        (⟨[0], [5], 0, 0, 1⟩ : DefaultSparseVec Nat).len ∧
      (new (0 : Nat)).pop.2.len = 0 := by
  refine ⟨by decide, by decide, by decide⟩

/-- **C2 (failing run)**: on the vector built by `push 0; push 5`
(logical `[0, 5]`, stored entries `ind = [1]`, `val = [5]`, `len = 2`),
the just-removed logical slot `len - 1 = 1` *is* physically the last
stored entry, holding `5`; the claim says `pop` must decrement `raw_len`
and return that stored value, but the code (whose test is
`raw_len == len`, here `1 ≠ 2`) returns a clone of the default `0`,
leaves `raw_len = 1`, and strands the stored entry at index
`1 ≥ len = 1`. -/
theorem C2_pop_returns_default_for_stored_slot :
    (((new (0 : Nat)).push 0).push 5).ind = [1] ∧
      (((new (0 : Nat)).push 0).push 5).val = [5] ∧
      (((new (0 : Nat)).push 0).push 5).len = 2 ∧
      (((new (0 : Nat)).push 0).push 5).pop = (some 0, ⟨[1], [5], 1, 0, 1⟩) := by
  refine ⟨by decide, by decide, by decide, by decide⟩

/-- **C3 (failing run)**: inserting the default element `0` at index `0`
into the vector `[5]` (one stored entry `(0, 5)`) must, per the claim,
move the stored entry to logical index `1`, producing the dense vector
`[0, 5]` with `raw_len` unchanged. The code instead leaves the live
region ending at the stale, un-incremented copy at the insertion slot:
the stored entry stays at logical index `0` and the result reads
`[5, 0]`. -/
theorem C3_insert_default_misshifts :
    ((new (0 : Nat)).push 5).insert 0 0 = some ⟨[0], [5], 2, 0, 2⟩ ∧
      (((new (0 : Nat)).push 5).insert 0 0).map intoVec = some [5, 0] := by
  refine ⟨by decide, by decide⟩

/-- **C4 (failing run)**: the strict-increase invariant of the physical
index array fails on the code. After `push 0; push 5; pop` the buggy
`pop` strands the stored entry `(1, 5)` although `len = 1`; the next
`push 7` then stores `(1, 7)` as well, leaving the physical index array
`[1, 1]` — not strictly increasing (a duplicated logical index). -/
theorem C4_indices_not_strictly_increasing :
    ((((new (0 : Nat)).push 0).push 5).pop.2.push 7).ind = [1, 1] ∧
      ¬ List.Pairwise (· < ·)
        ((((new (0 : Nat)).push 0).push 5).pop.2.push 7).ind := by
  refine ⟨by decide, by decide⟩

/-- **C5 (failing run)**: `n_push`'s storing condition is inverted
(`self.default == elem`). Pushing the non-default element `1` onto the
empty vector stores nothing physically (the element is lost — reading
logical index `0` afterwards yields the default `0`), while pushing the
default element `0` physically stores `(0, 0)`. The claim — store
exactly the non-default elements — requires the opposite on both
inputs. -/
theorem C5_n_push_stores_exactly_defaults :
    ((new (0 : Nat)).n_push 1).ind = [] ∧
      ((new (0 : Nat)).n_push 1).len = 1 ∧
      ((new (0 : Nat)).n_push 1).get 0 = some 0 ∧
      ((new (0 : Nat)).n_push 0).ind = [0] ∧
      ((new (0 : Nat)).n_push 0).val = [0] := by
  refine ⟨by decide, by decide, by decide, by decide, by decide⟩

end DefaultSparseVec

namespace ZeroSparseVec

/-- **C9 (failing run)**: `ZeroSparseVec::get_mut` on a miss increments
`len` in addition to materializing the slot. On the vector with
`len = 2`, `indices = [1]`, `values = [1]`, `default = 0` (the sparse
form of the dense `[0, 1]`, satisfying all data-model invariants), the
in-bounds unstored index `0` is materialized at the correct sorted
position `0` with a clone of the default and the physical count grows to
`2` — but `len` becomes `3`, although the claim requires `len`
unchanged. -/
theorem C9_zero_get_mut_increments_len :
    get_mut (⟨2, [1], [1], 0⟩ : ZeroSparseVec Nat) 0
        = some (0, ⟨3, [0, 1], [0, 1], 0⟩) ∧
      nnz (⟨3, [0, 1], [0, 1], 0⟩ : ZeroSparseVec Nat)
        = nnz (⟨2, [1], [1], 0⟩ : ZeroSparseVec Nat) + 1 := by
  refine ⟨by decide, by decide⟩

end ZeroSparseVec

end VecPlus
